import Mathlib

/-!
Shallow embedding of `data_loader.py` (class `DataLoader`) from the
CarND-Behavioral-Cloning repository, together with theorems checking the
natural-language specification against it.

Modelling conventions:
* Python floats are modelled as exact rationals (`ℚ`); the spec states all
  numeric contracts (camera correction, clipping, binning) in exact
  real-number terms.
* A measurement `(steering_angle, throttle, break_force)` is a triple
  `ℚ × ℚ × ℚ`, exactly as built by `DataLoader._parse_line`.
* Fallible Python code (exceptions such as `ValueError`, `IndexError`,
  `KeyError`, assertion failures) is modelled with `Except String`.
* External collaborators are abstracted as parameters: the bin edges chosen
  by `np.histogram(..., bins='auto')` become an explicit `edges` list, the
  unseeded `np.random.choice` becomes an explicit `choose` function, and the
  matched random permutations produced by `sklearn.utils.shuffle` become an
  explicit stream `σ` of index permutations.  Pixel-level image contents are
  out of scope (only filenames flow through the pipeline).
* The file system seen by `DataLoader._flip_images` is modelled as the list
  of paths of existing files, threaded through the loop, together with the
  list of paths written (`cv2.imwrite` calls).
-/

/-- A measurement triple `(steering_angle, throttle, break_force)`,
as appended by `DataLoader._parse_line`. -/
abbrev Meas : Type := ℚ × ℚ × ℚ

/-- The steering-angle component of a measurement: `measurements[:,0]`
(column 0) in the source. -/
def steer (m : Meas) : ℚ := m.1

/-- Element-wise clipping of one value to `[-1.0, 1.0]`, the scalar action of
`np.clip(measurements, a_min = -1.0, a_max = 1.0)` in `_parse_line`
(line 152 of `data_loader.py`). -/
def clip (x : ℚ) : ℚ := max (-1) (min x 1)

/-- Element-wise clipping of a whole measurement row; `np.clip` applies to all
three columns of each emitted row, throttle and brake included. -/
def clip3 (m : Meas) : Meas := (clip m.1, clip m.2.1, clip m.2.2)

/-- Split of a character list on each non-overlapping occurrence of `sep`,
left to right, with explicit fuel so that the recursion is structural.
Modelled from Python's `str.split(sep)` used in `_parse_line`
(`img.split(self.path_separator)`).  With enough fuel (the length of the
input suffices, since each step consumes at least one character) this is
Python's behaviour for every non-empty `sep`; Python raises on an empty
separator, which no claim exercises. -/
def splitChars (sep : List Char) : Nat → List Char → List (List Char)
  | _, [] => [[]]
  | 0, s => [s]
  | fuel+1, c :: rest =>
    if !sep.isEmpty && sep.isPrefixOf (c :: rest) then
      [] :: splitChars sep fuel ((c :: rest).drop sep.length)
    else
      match splitChars sep fuel rest with
      | [] => [[c]]
      | w :: ws => (c :: w) :: ws

/-- Python's `s.split(sep)` on strings. -/
def pySplit (s sep : String) : List String :=
  (splitChars sep.data s.data.length s.data).map String.mk

/-- Python's `img.split(self.path_separator)[-1]`: the component after the
last separator (`_parse_line`, line 137).  `pySplit` never returns an empty
list, so the default of `getLastD` is never used. -/
def lastComponent (sep : String) (s : String) : String :=
  (pySplit s sep).getLastD s

/-- Digits-only decimal reading of a character list; `none` on an empty list
or any non-digit character. -/
def decDigits (s : List Char) : Option Nat :=
  if s.isEmpty then none
  else s.foldl (fun acc c => acc.bind fun n => if c.isDigit then some (10 * n + (c.toNat - 48)) else none) (some 0)

/-- Reading of an unsigned decimal literal (`"12"`, `"0.5"`, `"1."`, `".5"`),
as accepted by Python's `float(...)` in `_parse_line` (line 138); exotic float
syntax (exponents, `inf`, `nan`, whitespace) is not modelled — no claim
exercises it. -/
def parseUnsigned (s : String) : Option ℚ :=
  match pySplit s "." with
  | [i] => (decDigits i.data).map (fun n => (n : ℚ))
  | [i, f] =>
    if i.isEmpty && f.isEmpty then none
    else
      let ip := if i.isEmpty then some (0 : Nat) else decDigits i.data
      let fp := if f.isEmpty then some (0 : Nat) else decDigits f.data
      match ip, fp with
      | some a, some b => some ((a : ℚ) + (b : ℚ) / ((10 : ℚ) ^ f.data.length))
      | _, _ => none
  | _ => none

/-- Python's `float(value)` on a decimal literal with an optional sign. -/
def parseFloat (s : String) : Option ℚ :=
  match s.data with
  | [] => none
  | c :: rest =>
    if c = '-' then (parseUnsigned (String.mk rest)).map (fun q => -q)
    else if c = '+' then parseUnsigned (String.mk rest)
    else parseUnsigned s

/-- One log line, `DataLoader._parse_line` (lines 132-154).  The line must
carry at least six fields (three camera paths and three numeric fields);
unpacking fewer raises `ValueError` in Python, and a non-numeric field raises
`ValueError` from `float(...)` — both modelled as `.error`.  The center sample
is always emitted; when `angle_correction` is set the left and right camera
samples are emitted with `steering_angle ± correction` and then
`np.clip(measurements, -1.0, 1.0)` rewrites the whole measurement list —
all three rows, all three columns. -/
def parse_line (sep : String) (angle_correction : Option ℚ) (line : List String) :
    Except String (List String × List Meas) :=
  match line with
  | c :: l :: r :: sf :: tf :: bf :: _ =>
    let center_img := lastComponent sep c
    let left_img := lastComponent sep l
    let right_img := lastComponent sep r
    match parseFloat sf, parseFloat tf, parseFloat bf with
    | some steering_angle, some throttle, some break_force =>
      match angle_correction with
      | none => .ok ([center_img], [(steering_angle, throttle, break_force)])
      | some ac =>
        .ok ([center_img, left_img, right_img],
             ([(steering_angle, throttle, break_force),
               (steering_angle + ac, throttle, break_force),
               (steering_angle - ac, throttle, break_force)].map clip3))
    | _, _, _ => .error "ValueError: could not convert string to float"
  | _ => .error "ValueError: not enough values to unpack"

/-- The CSV accumulation loop of `DataLoader._load_data_log` (lines 117-130):
each line is parsed and its images and measurements are appended to the two
parallel accumulators; the first parse error aborts the build. -/
def load_data_log (sep : String) (angle_correction : Option ℚ) :
    List (List String) → Except String (List String × List Meas)
  | [] => .ok ([], [])
  | line :: rest =>
    match parse_line sep angle_correction line with
    | .error e => .error e
    | .ok (line_images, line_measurements) =>
      match load_data_log sep angle_correction rest with
      | .error e => .error e
      | .ok (imgs, meas) => .ok (line_images ++ imgs, line_measurements ++ meas)

/-- The bins scanned by `DataLoader._normalize` (lines 163-169): for each `i`,
bin `i` is `(bins[i], bins[i+1])`, and the flag marks the last bin
(`i == len(bins) - 2`), which is closed on the right. -/
def binsOf (edges : List ℚ) : List (ℚ × ℚ × Bool) :=
  (List.range (edges.length - 1)).map
    (fun i => (edges.getD i 0, edges.getD (i+1) 0, i + 2 == edges.length))

/-- Membership of an angle in one bin, exactly the `np.where` conditions of
`_normalize`: `angle >= left` and (`angle <= right` for the last bin,
`angle < right` otherwise). -/
def binMem (b : ℚ × ℚ × Bool) (a : ℚ) : Bool :=
  decide (b.1 ≤ a) && (if b.2.2 then decide (a ≤ b.2.1) else decide (a < b.2.1))

/-- The index set `bin_angles[0]` of one bin: positions of the angles that
satisfy the bin's membership condition, in order (`np.where`). -/
def binIndices (angles : List ℚ) (b : ℚ × ℚ × Bool) : List Nat :=
  (angles.enum.filter (fun p => binMem b p.2)).map Prod.fst

/-- The histogram counts `values` of `_normalize` for the given edges:
`np.histogram` counts with the same half-open-except-last convention as the
`np.where` conditions. -/
def binCounts (edges : List ℚ) (angles : List ℚ) : List Nat :=
  (binsOf edges).map (fun b => (binIndices angles b).length)

/-- The retention bound `max_wanted = (np.mean(values) * factor).astype('uint32')`
of `_normalize` (line 159).  The `uint32` cast truncates; for the nonnegative
values arising here (a mean of counts times a nonnegative factor) that is the
integer floor.  (A negative factor would hit platform-dependent `numpy`
float-to-unsigned casts and the `2^32` wrap is far beyond any dataset size;
neither is modelled, and theorems assume `0 ≤ factor`.) -/
def maxWanted (factor : ℚ) (edges : List ℚ) (angles : List ℚ) : Nat :=
  (⌊(((binCounts edges angles).sum : ℚ) / ((binCounts edges angles).length : ℚ)) * factor⌋).toNat

/-- The drop list accumulated over the bins of `_normalize` (lines 161-172):
for each bin whose count exceeds `max_wanted`, `np.random.choice(bin, size =
count - max_wanted, replace = False)` picks the indices to drop; the random
source is abstracted as the `choose` parameter. -/
def dropList (factor : ℚ) (edges : List ℚ) (choose : List Nat → Nat → List Nat)
    (angles : List ℚ) : List Nat :=
  (binsOf edges).foldl
    (fun acc b =>
      if (binIndices angles b).length > maxWanted factor edges angles then
        acc ++ choose (binIndices angles b)
          ((binIndices angles b).length - maxWanted factor edges angles)
      else acc)
    []

/-- Python/numpy `np.delete(xs, drop, axis = 0)`: the elements whose positions
are not listed in `drop`, in their original order (duplicate positions in
`drop` act once, as with numpy's boolean-mask semantics). -/
def npDelete {α : Type} (xs : List α) (drop : List Nat) : List α :=
  (xs.enum.filter (fun p => !(drop.contains p.1))).map Prod.snd

/-- `DataLoader._normalize` (lines 156-177).  `angles = measurements[:,0]`
performs two-dimensional indexing; `np.array` of an empty Python list is a
one-dimensional empty array, on which `[:,0]` raises `IndexError`, modelled
as `.error`.  Otherwise the same drop list is deleted from both parallel
arrays. -/
def normalizeData (factor : ℚ) (edges : List ℚ) (choose : List Nat → Nat → List Nat)
    (images : List String) (measurements : List Meas) :
    Except String (List String × List Meas) :=
  if measurements.isEmpty then
    .error "IndexError: too many indices for array"
  else
    let angles := measurements.map steer
    let drop := dropList factor edges choose angles
    .ok (npDelete images drop, npDelete measurements drop)

/-- The flip condition of `_flip_images` (line 186):
`steering_angle >= self.flip_min_angle or steering_angle <= -self.flip_min_angle`. -/
def flipCond (flip_min_angle : ℚ) (a : ℚ) : Bool :=
  decide (a ≥ flip_min_angle) || decide (a ≤ -flip_min_angle)

/-- POSIX `os.path.join(folder, name)` for the relative names used here. -/
def joinPath (folder name : String) : String := folder ++ "/" ++ name

/-- The loop state of `_flip_images`: the existing files, the paths written so
far (`cv2.imwrite` calls), and the two `new_images` / `new_measurements`
accumulators. -/
abbrev FlipState : Type := List String × List String × List String × List Meas

/-- One iteration of the `_flip_images` loop (lines 184-196): for a qualifying
sample the derived name `'flipped_' + image` is appended, the file is written
only when `os.path.isfile` fails for the derived path, and the measurement is
appended with the steering angle negated. -/
def flipStep (flip_min_angle : ℚ) (folder : String) (st : FlipState) (p : String × Meas) :
    FlipState :=
  let fs := st.1
  let writes := st.2.1
  let new_images := st.2.2.1
  let new_measurements := st.2.2.2
  let image := p.1
  if flipCond flip_min_angle (steer p.2) then
    let flipped_name := "flipped_" ++ image
    let flipped_path := joinPath folder flipped_name
    if fs.contains flipped_path then
      (fs, writes, new_images ++ [flipped_name],
       new_measurements ++ [(-(steer p.2), p.2.2.1, p.2.2.2)])
    else
      (flipped_path :: fs, writes ++ [flipped_path], new_images ++ [flipped_name],
       new_measurements ++ [(-(steer p.2), p.2.2.1, p.2.2.2)])
  else st

/-- The whole `for image, measurement in zip(images, measurements)` loop of
`_flip_images`, threading the file system through the iterations. -/
def flipLoop (flip_min_angle : ℚ) (folder : String) (fs : List String)
    (images : List String) (measurements : List Meas) : FlipState :=
  (images.zip measurements).foldl (flipStep flip_min_angle folder) (fs, [], [], [])

/-- `DataLoader._flip_images` (lines 179-201).  After the loop,
`np.append(measurements, new_measurements, axis = 0)` concatenates a
two-dimensional `(n, 3)` array with `np.asarray(new_measurements)`; when
`new_measurements` is the empty list that operand is a one-dimensional `(0,)`
array and `np.concatenate` raises `ValueError` (dimension mismatch) — modelled
as `.error`.  The images append concatenates two one-dimensional arrays and
always succeeds.  The returned triple is (final file system, written paths,
result). -/
def flip_images (flip_min_angle : ℚ) (folder : String) (fs : List String)
    (images : List String) (measurements : List Meas) :
    List String × List String × Except String (List String × List Meas) :=
  let st := flipLoop flip_min_angle folder fs images measurements
  (st.1, st.2.1,
   if st.2.2.2.isEmpty && !measurements.isEmpty then
     .error "ValueError: all the input array dimensions must match"
   else
     .ok (images ++ st.2.2.1, measurements ++ st.2.2.2))

/-- The values storable in the pickled dictionary of `_save_pickle`. -/
inductive PickleValue : Type where
  | strs (xs : List String)
  | meas (ms : List Meas)

/-- `DataLoader._save_pickle` (lines 208-214): the persisted object is the
dictionary `{'images': images, 'measurements': measurements}`; pickle
round-trips the structure exactly, so the artifact is modelled as the
key-value list itself. -/
def save_pickle (images : List String) (measurements : List Meas) :
    List (String × PickleValue) :=
  [("images", PickleValue.strs images), ("measurements", PickleValue.meas measurements)]

/-- Python dictionary lookup `train[key]`; a missing key raises `KeyError`. -/
def lookupKey (d : List (String × PickleValue)) (k : String) : Except String PickleValue :=
  match d.find? (fun p => p.1 == k) with
  | some p => .ok p.2
  | none => .error ("KeyError: " ++ k)

/-- `DataLoader._read_pickle` (lines 203-206): reads the persisted dictionary
and returns `train['images'], train['measurements']`. -/
def read_pickle (d : List (String × PickleValue)) :
    Except String (List String × List Meas) :=
  match lookupKey d "images", lookupKey d "measurements" with
  | .ok (PickleValue.strs i), .ok (PickleValue.meas m) => .ok (i, m)
  | .error e, _ => .error e
  | _, .error e => .error e
  | _, _ => .error "TypeError: unexpected pickle payload"

/-- `DataLoader._process_data` (lines 105-115): log accumulation, then
normalization when `normalize_factor` is set, then flip augmentation when
`flip_min_angle` is set. -/
def process_data (sep : String) (angle_correction : Option ℚ)
    (normalize_factor : Option ℚ) (edges : List ℚ) (choose : List Nat → Nat → List Nat)
    (flip_min_angle : Option ℚ) (folder : String) (fs : List String)
    (lines : List (List String)) : Except String (List String × List Meas) := do
  let (images, measurements) ← load_data_log sep angle_correction lines
  let (images, measurements) ←
    match normalize_factor with
    | none => Except.ok (images, measurements)
    | some factor => normalizeData factor edges choose images measurements
  match flip_min_angle with
  | none => Except.ok (images, measurements)
  | some ma => (flip_images ma folder fs images measurements).2.2

/-- The batch offsets `range(0, num_samples, batch_size)` of
`DataLoader.generator` (line 77), for a positive step. -/
def offsets (num_samples batch_size : Nat) : List Nat :=
  (List.range ((num_samples + batch_size - 1) / batch_size)).map (· * batch_size)

/-- Application of one index permutation to a list, the action of
`sklearn.utils.shuffle` on one of its two arguments (the same permutation is
applied to both). -/
def applyPerm {α : Type} [Inhabited α] (p : List Nat) (xs : List α) : List α :=
  p.map (fun i => xs.getD i default)

/-- The shuffled data at the start of epoch `k` of `DataLoader.generator`:
the loop body reshuffles `images, measurements` with a fresh matched
permutation `σ k` before slicing (line 76). -/
def epochData (σ : Nat → List Nat) (images : List String) (measurements : List Meas) :
    Nat → List String × List Meas
  | 0 => (applyPerm (σ 0) images, applyPerm (σ 0) measurements)
  | k+1 =>
    let prev := epochData σ images measurements k
    (applyPerm (σ (k+1)) prev.1, applyPerm (σ (k+1)) prev.2)

/-- The batches yielded during epoch `k` of `DataLoader.generator`
(lines 75-84): consecutive slices `[offset : offset + batch_size]` of the
shuffled data, with `num_samples` fixed from the original `images` before the
loop, and `Y_batch = measurements_batch[:,0]` the steering-angle column.
Image loading (`_load_image`) is out of scope; batches carry filenames. -/
def genEpoch (batch_size : Nat) (images : List String) (measurements : List Meas)
    (σ : Nat → List Nat) (k : Nat) : List (List String × List ℚ) :=
  let d := epochData σ images measurements k
  (offsets images.length batch_size).map
    (fun o => ((d.1.drop o).take batch_size, ((d.2.drop o).take batch_size).map steer))

/-- `DataLoader.generator` (lines 69-84): the entry assertion
`assert(num_samples == len(measurements))` either fails, or the generator
never terminates and yields the epochs' batches forever. -/
def generator (batch_size : Nat) (images : List String) (measurements : List Meas)
    (σ : Nat → List Nat) : Except String (Nat → List (List String × List ℚ)) :=
  if images.length = measurements.length then
    .ok (genEpoch batch_size images measurements σ)
  else
    .error "AssertionError: num_samples == len(measurements)"

/-! ### Parser lemmas -/

theorem parse_line_none_eq (sep : String) (c l r sf tf bf : String) (xs : List String)
    (sa th br : ℚ) (hs : parseFloat sf = some sa) (ht : parseFloat tf = some th)
    (hb : parseFloat bf = some br) :
    parse_line sep none (c :: l :: r :: sf :: tf :: bf :: xs) =
      .ok ([lastComponent sep c], [(sa, th, br)]) := by
  simp [parse_line, hs, ht, hb]

theorem parse_line_some_eq (sep : String) (ac : ℚ) (c l r sf tf bf : String) (xs : List String)
    (sa th br : ℚ) (hs : parseFloat sf = some sa) (ht : parseFloat tf = some th)
    (hb : parseFloat bf = some br) :
    parse_line sep (some ac) (c :: l :: r :: sf :: tf :: bf :: xs) =
      .ok ([lastComponent sep c, lastComponent sep l, lastComponent sep r],
           [clip3 (sa, th, br), clip3 (sa + ac, th, br), clip3 (sa - ac, th, br)]) := by
  simp [parse_line, hs, ht, hb]

theorem parseFloat_half : parseFloat "0.5" = some (1/2) := by
  have h : parseFloat "0.5" = some (((0 : Nat) : ℚ) + ((5 : Nat) : ℚ) / ((10 : ℚ) ^ (1 : Nat))) := rfl
  rw [h]; norm_num

theorem parseFloat_fifth : parseFloat "0.2" = some (1/5) := by
  have h : parseFloat "0.2" = some (((0 : Nat) : ℚ) + ((2 : Nat) : ℚ) / ((10 : ℚ) ^ (1 : Nat))) := rfl
  rw [h]; norm_num

theorem parseFloat_zero : parseFloat "0.0" = some 0 := by
  have h : parseFloat "0.0" = some (((0 : Nat) : ℚ) + ((0 : Nat) : ℚ) / ((10 : ℚ) ^ (1 : Nat))) := rfl
  rw [h]; norm_num

theorem parseFloat_ninetyfive : parseFloat "0.95" = some (19/20) := by
  have h : parseFloat "0.95" = some (((0 : Nat) : ℚ) + ((95 : Nat) : ℚ) / ((10 : ℚ) ^ (2 : Nat))) := rfl
  rw [h]; norm_num

theorem parseFloat_three_halves : parseFloat "1.5" = some (3/2) := by
  have h : parseFloat "1.5" = some (((1 : Nat) : ℚ) + ((5 : Nat) : ℚ) / ((10 : ℚ) ^ (1 : Nat))) := rfl
  rw [h]; norm_num

theorem lastComponent_c : lastComponent "/" "IMG/c.jpg" = "c.jpg" := by decide

theorem lastComponent_l : lastComponent "/" "IMG/l.jpg" = "l.jpg" := by decide

theorem lastComponent_r : lastComponent "/" "IMG/r.jpg" = "r.jpg" := by decide

/-- C2: for the log line `["IMG/c.jpg","IMG/l.jpg","IMG/r.jpg","0.5","0.2","0.0"]`
with path separator `/` and `angle_correction = 0.1`, `_parse_line` returns the
bare filenames `["c.jpg","l.jpg","r.jpg"]` and the measurements
`[(0.5,0.2,0.0),(0.6,0.2,0.0),(0.4,0.2,0.0)]`: center unchanged, left with
steering + correction, right with steering - correction, throttle and brake
unchanged (clipping triggers no change here). -/
theorem C2_parser_correctness :
    parse_line "/" (some (1/10)) ["IMG/c.jpg", "IMG/l.jpg", "IMG/r.jpg", "0.5", "0.2", "0.0"] =
      .ok (["c.jpg", "l.jpg", "r.jpg"],
           [(1/2, 1/5, 0), (3/5, 1/5, 0), (2/5, 1/5, 0)]) := by
  rw [parse_line_some_eq "/" (1/10) "IMG/c.jpg" "IMG/l.jpg" "IMG/r.jpg" "0.5" "0.2" "0.0" []
      (1/2) (1/5) 0 parseFloat_half parseFloat_fifth parseFloat_zero,
    lastComponent_c, lastComponent_l, lastComponent_r]
  norm_num [clip3, clip, min_def, max_def]

theorem clip_bounds (x : ℚ) : -1 ≤ clip x ∧ clip x ≤ 1 := by
  constructor
  · exact le_max_left _ _
  · exact max_le (by norm_num) (min_le_right _ _)

theorem clip_of_mem_Icc (x : ℚ) (h1 : -1 ≤ x) (h2 : x ≤ 1) : clip x = x := by
  rw [clip, min_eq_left h2, max_eq_right h1]

/-- C3: when `angle_correction` is set, `_parse_line` emits exactly the
element-wise clip to `[-1,1]` of the three raw measurement rows (center,
left with steering + correction, right with steering - correction), so the
clipping applies to throttle and brake as well as to steering, and every
emitted component lies in `[-1,1]`.  The witness instantiates steering `0.95`
and correction `0.1`, giving a left-camera angle of exactly `1.0`. -/
theorem C3_parser_clipping (sep : String) (ac : ℚ) (c l r sf tf bf : String)
    (xs : List String) (sa th br : ℚ) (hs : parseFloat sf = some sa)
    (ht : parseFloat tf = some th) (hb : parseFloat bf = some br) :
    parse_line sep (some ac) (c :: l :: r :: sf :: tf :: bf :: xs) =
      .ok ([lastComponent sep c, lastComponent sep l, lastComponent sep r],
           [clip3 (sa, th, br), clip3 (sa + ac, th, br), clip3 (sa - ac, th, br)])
    ∧ ∀ m ∈ [clip3 (sa, th, br), clip3 (sa + ac, th, br), clip3 (sa - ac, th, br)],
        (-1 ≤ steer m ∧ steer m ≤ 1) ∧ (-1 ≤ m.2.1 ∧ m.2.1 ≤ 1) ∧ (-1 ≤ m.2.2 ∧ m.2.2 ≤ 1) := by
  refine ⟨parse_line_some_eq sep ac c l r sf tf bf xs sa th br hs ht hb, ?_⟩
  intro m hm
  have hc : ∀ y : Meas, (-1 ≤ steer (clip3 y) ∧ steer (clip3 y) ≤ 1) ∧
      (-1 ≤ (clip3 y).2.1 ∧ (clip3 y).2.1 ≤ 1) ∧ (-1 ≤ (clip3 y).2.2 ∧ (clip3 y).2.2 ≤ 1) := by
    intro y
    exact ⟨clip_bounds y.1, clip_bounds y.2.1, clip_bounds y.2.2⟩
  simp only [List.mem_cons, List.not_mem_nil, or_false] at hm
  rcases hm with rfl | rfl | rfl
  all_goals exact hc _

theorem C3_parser_clipping_witness :
    parse_line "/" (some (1/10)) ["IMG/c.jpg", "IMG/l.jpg", "IMG/r.jpg", "0.95", "0.0", "0.0"] =
      .ok (["c.jpg", "l.jpg", "r.jpg"], [(19/20, 0, 0), (1, 0, 0), (17/20, 0, 0)]) := by
  have h := (C3_parser_clipping "/" (1/10) "IMG/c.jpg" "IMG/l.jpg" "IMG/r.jpg"
    "0.95" "0.0" "0.0" [] (19/20) 0 0 parseFloat_ninetyfive parseFloat_zero parseFloat_zero).1
  rw [h, lastComponent_c, lastComponent_l, lastComponent_r]
  norm_num [clip3, clip, min_def, max_def]

theorem clip3_of_bounded (m : Meas) (h1 : -1 ≤ m.1) (h2 : m.1 ≤ 1) (h3 : -1 ≤ m.2.1)
    (h4 : m.2.1 ≤ 1) (h5 : -1 ≤ m.2.2) (h6 : m.2.2 ≤ 1) : clip3 m = m := by
  rw [clip3, clip_of_mem_Icc _ h1 h2, clip_of_mem_Icc _ h3 h4, clip_of_mem_Icc _ h5 h6]

/-- C4 (amended): `_parse_line` emits the center-camera measurement exactly as
parsed when `angle_correction` is `None`; when `angle_correction` is set, the
emitted center measurement is the parsed triple clipped element-wise to
`[-1,1]` — hence unmodified exactly when the parsed values already lie in
`[-1,1]`.  (The original claim — unmodified for every correction setting, even
out of range — is refuted by `C4_center_unmodified_cex`.) -/
theorem C4_center_unmodified_amended (sep : String) (c l r sf tf bf : String)
    (xs : List String) (sa th br : ℚ) (hs : parseFloat sf = some sa)
    (ht : parseFloat tf = some th) (hb : parseFloat bf = some br) :
    ((parse_line sep none (c :: l :: r :: sf :: tf :: bf :: xs)).map
        (fun p => p.2.head?) = .ok (some (sa, th, br)))
    ∧ (∀ ac : ℚ, (parse_line sep (some ac) (c :: l :: r :: sf :: tf :: bf :: xs)).map
        (fun p => p.2.head?) = .ok (some (clip3 (sa, th, br))))
    ∧ (-1 ≤ sa → sa ≤ 1 → -1 ≤ th → th ≤ 1 → -1 ≤ br → br ≤ 1 →
        clip3 (sa, th, br) = (sa, th, br)) := by
  refine ⟨?_, ?_, ?_⟩
  · rw [parse_line_none_eq sep c l r sf tf bf xs sa th br hs ht hb]
    rfl
  · intro ac
    rw [parse_line_some_eq sep ac c l r sf tf bf xs sa th br hs ht hb]
    rfl
  · intro h1 h2 h3 h4 h5 h6
    exact clip3_of_bounded (sa, th, br) h1 h2 h3 h4 h5 h6

/-- C4 counterexample: on the line with parsed steering `1.5` (field `"1.5"`)
and `angle_correction = 0.1`, the emitted center measurement is the clipped
`(1, 0, 0)`, not the parsed `(1.5, 0, 0)` — the center sample is NOT emitted
unmodified when the parsed values lie outside `[-1,1]`. -/
theorem C4_center_unmodified_cex :
    parseFloat "1.5" = some (3/2)
    ∧ (parse_line "/" (some (1/10)) ["IMG/c.jpg", "IMG/l.jpg", "IMG/r.jpg", "1.5", "0.0", "0.0"]).map
        (fun p => p.2.head?) = .ok (some ((1 : ℚ), (0 : ℚ), (0 : ℚ)))
    ∧ (((1 : ℚ), (0 : ℚ), (0 : ℚ)) : Meas) ≠ ((3/2 : ℚ), (0 : ℚ), (0 : ℚ)) := by
  refine ⟨parseFloat_three_halves, ?_, ?_⟩
  · rw [parse_line_some_eq "/" (1/10) "IMG/c.jpg" "IMG/l.jpg" "IMG/r.jpg" "1.5" "0.0" "0.0" []
      (3/2) 0 0 parseFloat_three_halves parseFloat_zero parseFloat_zero]
    simp only [Except.map, List.head?]
    norm_num [clip3, clip, min_def, max_def]
  · intro h
    have := congrArg Prod.fst h
    norm_num at this

theorem C4_center_unmodified_amended_witness :
    ((parse_line "/" none ["IMG/c.jpg", "IMG/l.jpg", "IMG/r.jpg", "0.5", "0.2", "0.0"]).map
        (fun p => p.2.head?) = .ok (some ((1/2 : ℚ), (1/5 : ℚ), (0 : ℚ))))
    ∧ ((parse_line "/" (some (1/10)) ["IMG/c.jpg", "IMG/l.jpg", "IMG/r.jpg", "0.5", "0.2", "0.0"]).map
        (fun p => p.2.head?) = .ok (some ((1/2 : ℚ), (1/5 : ℚ), (0 : ℚ)))) := by
  have h := C4_center_unmodified_amended "/" "IMG/c.jpg" "IMG/l.jpg" "IMG/r.jpg"
    "0.5" "0.2" "0.0" [] (1/2) (1/5) 0 parseFloat_half parseFloat_fifth parseFloat_zero
  have hclip : clip3 ((1/2 : ℚ), (1/5 : ℚ), (0 : ℚ)) = ((1/2 : ℚ), (1/5 : ℚ), (0 : ℚ)) :=
    h.2.2 (by norm_num) (by norm_num) (by norm_num) (by norm_num) (by norm_num) (by norm_num)
  refine ⟨h.1, ?_⟩
  rw [h.2.1 (1/10), hclip]

/-! ### Cache and empty-log behaviour -/

/-- C8: `_save_pickle` followed by `_read_pickle` returns images and
measurements structurally equal, element by element and in order, to what was
saved. -/
theorem C8_cache_roundtrip (images : List String) (measurements : List Meas) :
    read_pickle (save_pickle images measurements) = .ok (images, measurements) := rfl

/-- C10: on a log with zero lines, `_load_data_log` accumulates nothing (its
`np.array([])` results are one-dimensional empty arrays), and with
normalization enabled the column access `measurements[:,0]` in `_normalize`
raises `IndexError`, so building the dataset fails instead of returning an
empty dataset. -/
theorem C10_empty_log_error :
    (∀ sep ac, load_data_log sep ac [] = .ok ([], []))
    ∧ (∀ factor edges choose images,
        normalizeData factor edges choose images [] =
          .error "IndexError: too many indices for array")
    ∧ (∀ sep ac factor edges choose fma folder fs,
        process_data sep ac (some factor) edges choose fma folder fs [] =
          .error "IndexError: too many indices for array") := by
  refine ⟨fun sep ac => rfl, fun factor edges choose images => rfl, ?_⟩
  intro sep ac factor edges choose fma folder fs
  rfl

/-! ### Length (pairing) invariants -/

theorem parse_line_length (sep : String) (ac : Option ℚ) (line : List String)
    (i : List String) (m : List Meas) (h : parse_line sep ac line = .ok (i, m)) :
    i.length = m.length := by
  rcases line with _ | ⟨c, _ | ⟨l, _ | ⟨r, _ | ⟨sf, _ | ⟨tf, _ | ⟨bf, xs⟩⟩⟩⟩⟩⟩ <;>
    simp [parse_line] at h
  rcases hs : parseFloat sf with _ | sa <;> rcases ht : parseFloat tf with _ | th <;>
    rcases hb : parseFloat bf with _ | br <;> simp [hs, ht, hb] at h
  rcases ac with _ | a <;> simp at h <;> rcases h with ⟨hi, hm⟩ <;> subst hi <;>
    subst hm <;> rfl

theorem load_data_log_length (sep : String) (ac : Option ℚ) :
    ∀ (lines : List (List String)) (i : List String) (m : List Meas),
      load_data_log sep ac lines = .ok (i, m) → i.length = m.length := by
  intro lines
  induction lines with
  | nil =>
    intro i m h
    simp [load_data_log] at h
    rw [h.1, h.2]
    rfl
  | cons line rest ih =>
    intro i m h
    rw [load_data_log] at h
    rcases hp : parse_line sep ac line with e | ⟨li, lm⟩ <;> rw [hp] at h
    · cases h
    rcases hr : load_data_log sep ac rest with e | ⟨ri, rm⟩ <;> rw [hr] at h
    · cases h
    simp only [Except.ok.injEq, Prod.mk.injEq] at h
    rw [← h.1, ← h.2]
    simp [parse_line_length sep ac line li lm hp, ih ri rm hr]

theorem enumFrom_filter_fst_length {α β : Type} (q : Nat → Bool) :
    ∀ (n : Nat) (xs : List α) (ys : List β), xs.length = ys.length →
      ((List.enumFrom n xs).filter (fun p => q p.1)).length =
        ((List.enumFrom n ys).filter (fun p => q p.1)).length := by
  intro n xs
  induction xs generalizing n with
  | nil =>
    intro ys h
    cases ys with
    | nil => rfl
    | cons y ys => simp at h
  | cons x xs ih =>
    intro ys h
    cases ys with
    | nil => simp at h
    | cons y ys =>
      simp only [List.length_cons, Nat.add_right_cancel_iff] at h
      simp only [List.enumFrom, List.filter]
      cases hq : q n <;> simp [hq, ih (n+1) ys h]

theorem npDelete_length_eq {α β : Type} (xs : List α) (ys : List β) (d : List Nat)
    (h : xs.length = ys.length) : (npDelete xs d).length = (npDelete ys d).length := by
  unfold npDelete
  rw [List.length_map, List.length_map]
  exact enumFrom_filter_fst_length (fun i => !(d.contains i)) 0 xs ys h

theorem normalizeData_length (factor : ℚ) (edges : List ℚ)
    (choose : List Nat → Nat → List Nat) (images : List String) (measurements : List Meas)
    (i : List String) (m : List Meas) (hlen : images.length = measurements.length)
    (h : normalizeData factor edges choose images measurements = .ok (i, m)) :
    i.length = m.length := by
  unfold normalizeData at h
  by_cases he : measurements.isEmpty <;> simp [he] at h
  rw [← h.1, ← h.2]
  exact npDelete_length_eq images measurements _ hlen

theorem flipStep_acc_lengths (ma : ℚ) (folder : String) (st : FlipState) (p : String × Meas)
    (h : st.2.2.1.length = st.2.2.2.length) :
    ((flipStep ma folder st p).2.2.1).length = ((flipStep ma folder st p).2.2.2).length := by
  simp only [flipStep]
  split
  · split <;> simp [h]
  · exact h

theorem flipLoop_acc_lengths (ma : ℚ) (folder : String) :
    ∀ (pairs : List (String × Meas)) (st : FlipState), st.2.2.1.length = st.2.2.2.length →
      ((pairs.foldl (flipStep ma folder) st).2.2.1).length =
        ((pairs.foldl (flipStep ma folder) st).2.2.2).length := by
  intro pairs
  induction pairs with
  | nil => intro st h; exact h
  | cons p ps ih =>
    intro st h
    rw [List.foldl_cons]
    exact ih (flipStep ma folder st p) (flipStep_acc_lengths ma folder st p h)

theorem flip_images_length (ma : ℚ) (folder : String) (fs : List String)
    (images : List String) (measurements : List Meas) (i : List String) (m : List Meas)
    (hlen : images.length = measurements.length)
    (h : (flip_images ma folder fs images measurements).2.2 = .ok (i, m)) :
    i.length = m.length := by
  simp only [flip_images] at h
  have hacc : ((flipLoop ma folder fs images measurements).2.2.1).length =
      ((flipLoop ma folder fs images measurements).2.2.2).length :=
    flipLoop_acc_lengths ma folder (images.zip measurements) (fs, [], [], []) rfl
  split at h
  · cases h
  · simp only [Except.ok.injEq, Prod.mk.injEq] at h
    rw [← h.1, ← h.2]
    simp only [List.length_append, hlen]
    rw [hacc]

/-- C1: every pipeline stage preserves the pairing invariant
`len(images) == len(measurements)`: the log-accumulation loop of
`_load_data_log` establishes it, `_normalize` and `_flip_images` preserve it
whenever they return (both delete or append to the two parallel sequences in
lockstep), and the `_save_pickle`/`_read_pickle` pair returns exactly the
saved sequences. -/
theorem C1_pairing_invariant :
    (∀ (sep : String) (ac : Option ℚ) (lines : List (List String)) (i : List String)
        (m : List Meas), load_data_log sep ac lines = .ok (i, m) → i.length = m.length)
    ∧ (∀ (factor : ℚ) (edges : List ℚ) (choose : List Nat → Nat → List Nat)
        (images : List String) (measurements : List Meas) (i : List String) (m : List Meas),
        images.length = measurements.length →
        normalizeData factor edges choose images measurements = .ok (i, m) →
        i.length = m.length)
    ∧ (∀ (ma : ℚ) (folder : String) (fs : List String) (images : List String)
        (measurements : List Meas) (i : List String) (m : List Meas),
        images.length = measurements.length →
        (flip_images ma folder fs images measurements).2.2 = .ok (i, m) →
        i.length = m.length)
    ∧ (∀ (images : List String) (measurements : List Meas) (i : List String) (m : List Meas),
        images.length = measurements.length →
        read_pickle (save_pickle images measurements) = .ok (i, m) →
        i.length = m.length) := by
  refine ⟨load_data_log_length, normalizeData_length, flip_images_length, ?_⟩
  intro images measurements i m hlen h
  rw [read_pickle, save_pickle] at h
  simp only [lookupKey, List.find?] at h
  simp at h
  rw [← h.1, ← h.2]
  exact hlen

theorem C1_pairing_invariant_witness :
    ((["c.jpg"] : List String).length = ([((1:ℚ)/2, (1:ℚ)/5, (0:ℚ))] : List Meas).length)
    ∧ ((["a"] : List String).length = ([((0:ℚ), (0:ℚ), (0:ℚ))] : List Meas).length)
    ∧ ((["a.jpg", "flipped_a.jpg"] : List String).length =
        ([((0:ℚ), (0:ℚ), (0:ℚ)), ((0:ℚ), (0:ℚ), (0:ℚ))] : List Meas).length) := by
  have hload : load_data_log "/" none
      [["IMG/c.jpg", "IMG/l.jpg", "IMG/r.jpg", "0.5", "0.2", "0.0"]] =
      .ok (["c.jpg"], [((1:ℚ)/2, (1:ℚ)/5, (0:ℚ))]) := by
    rw [load_data_log, parse_line_none_eq "/" "IMG/c.jpg" "IMG/l.jpg" "IMG/r.jpg"
      "0.5" "0.2" "0.0" [] (1/2) (1/5) 0 parseFloat_half parseFloat_fifth parseFloat_zero,
      lastComponent_c]
    rfl
  have hnorm : normalizeData 1 [] (fun _ _ => []) ["a"] [((0:ℚ), (0:ℚ), (0:ℚ))] =
      .ok (["a"], [((0:ℚ), (0:ℚ), (0:ℚ))]) := rfl
  have hflip : (flip_images 0 "IMG" [] ["a.jpg"] [((0:ℚ), (0:ℚ), (0:ℚ))]).2.2 =
      .ok (["a.jpg", "flipped_a.jpg"], [((0:ℚ), (0:ℚ), (0:ℚ)), ((0:ℚ), (0:ℚ), (0:ℚ))]) := by
    norm_num [flip_images, flipLoop, flipStep, flipCond, steer, joinPath]
    decide
  exact ⟨C1_pairing_invariant.1 "/" none _ _ _ hload,
    C1_pairing_invariant.2.1 1 [] (fun _ _ => []) _ _ _ _ rfl hnorm,
    C1_pairing_invariant.2.2.1 0 "IMG" [] _ _ _ _ rfl hflip⟩

/-! ### Flip augmenter: appended samples, writes, and the on-disk cache -/

/-- The derived path of one sample's flipped image. -/
def flippedPath (folder : String) (p : String × Meas) : String :=
  joinPath folder ("flipped_" ++ p.1)

theorem flipLoop_new (ma : ℚ) (folder : String) :
    ∀ (pairs : List (String × Meas)) (fs w nI : List String) (nM : List Meas),
      (pairs.foldl (flipStep ma folder) (fs, w, nI, nM)).2.2.1 =
        nI ++ (pairs.filter (fun p => flipCond ma (steer p.2))).map (fun p => "flipped_" ++ p.1)
      ∧ (pairs.foldl (flipStep ma folder) (fs, w, nI, nM)).2.2.2 =
        nM ++ (pairs.filter (fun p => flipCond ma (steer p.2))).map
          (fun p => (-(steer p.2), p.2.2.1, p.2.2.2)) := by
  intro pairs
  induction pairs with
  | nil => intro fs w nI nM; simp
  | cons p ps ih =>
    intro fs w nI nM
    rw [List.foldl_cons, List.filter_cons]
    cases hq : flipCond ma (steer p.2) <;>
      simp only [flipStep, hq, if_true, if_false, Bool.false_eq_true]
    · exact ih fs w nI nM
    · cases hc : fs.contains (joinPath folder ("flipped_" ++ p.1)) <;>
        simp only [if_true, if_false, Bool.false_eq_true]
      · rcases ih (joinPath folder ("flipped_" ++ p.1) :: fs)
          (w ++ [joinPath folder ("flipped_" ++ p.1)])
          (nI ++ ["flipped_" ++ p.1]) (nM ++ [(-(steer p.2), p.2.2.1, p.2.2.2)]) with ⟨h1, h2⟩
        rw [h1, h2]
        simp
      · rcases ih fs w (nI ++ ["flipped_" ++ p.1])
          (nM ++ [(-(steer p.2), p.2.2.1, p.2.2.2)]) with ⟨h1, h2⟩
        rw [h1, h2]
        simp

theorem flipLoop_fs_mem (ma : ℚ) (folder : String) :
    ∀ (pairs : List (String × Meas)) (fs w nI : List String) (nM : List Meas) (q : String),
      q ∈ (pairs.foldl (flipStep ma folder) (fs, w, nI, nM)).1 ↔
        q ∈ fs ∨ q ∈ (pairs.filter (fun p => flipCond ma (steer p.2))).map (flippedPath folder) := by
  intro pairs
  induction pairs with
  | nil => intro fs w nI nM q; simp
  | cons p ps ih =>
    intro fs w nI nM q
    rw [List.foldl_cons, List.filter_cons]
    cases hq : flipCond ma (steer p.2) <;>
      simp only [flipStep, hq, if_true, if_false, Bool.false_eq_true]
    · exact ih fs w nI nM q
    · cases hc : fs.contains (joinPath folder ("flipped_" ++ p.1)) <;>
        simp only [if_true, if_false, Bool.false_eq_true]
      · rw [ih]
        have hpath : joinPath folder ("flipped_" ++ p.1) ∉ fs := by simp at hc; exact hc
        simp only [List.map_cons, List.mem_cons, flippedPath]
        tauto
      · rw [ih]
        have hpath : joinPath folder ("flipped_" ++ p.1) ∈ fs := by simp at hc; exact hc
        simp only [List.map_cons, List.mem_cons, flippedPath]
        constructor
        · tauto
        · rintro (h | h | h)
          · tauto
          · subst h; tauto
          · tauto

theorem flipLoop_writes_mem (ma : ℚ) (folder : String) :
    ∀ (pairs : List (String × Meas)) (fs w nI : List String) (nM : List Meas) (q : String),
      q ∈ (pairs.foldl (flipStep ma folder) (fs, w, nI, nM)).2.1 ↔
        q ∈ w ∨ (q ∈ (pairs.filter (fun p => flipCond ma (steer p.2))).map (flippedPath folder)
          ∧ q ∉ fs) := by
  intro pairs
  induction pairs with
  | nil => intro fs w nI nM q; simp
  | cons p ps ih =>
    intro fs w nI nM q
    rw [List.foldl_cons, List.filter_cons]
    cases hq : flipCond ma (steer p.2) <;>
      simp only [flipStep, hq, if_true, if_false, Bool.false_eq_true]
    · exact ih fs w nI nM q
    · cases hc : fs.contains (joinPath folder ("flipped_" ++ p.1)) <;>
        simp only [if_true, if_false, Bool.false_eq_true]
      · rw [ih]
        have hpath : joinPath folder ("flipped_" ++ p.1) ∉ fs := by simp at hc; exact hc
        simp only [List.map_cons, List.mem_cons, List.mem_append,
          List.mem_singleton, flippedPath]
        by_cases hqp : q = joinPath folder ("flipped_" ++ p.1)
        · subst hqp; tauto
        · tauto
      · rw [ih]
        have hpath : joinPath folder ("flipped_" ++ p.1) ∈ fs := by simp at hc; exact hc
        simp only [List.map_cons, List.mem_cons, flippedPath]
        by_cases hqp : q = joinPath folder ("flipped_" ++ p.1)
        · subst hqp; tauto
        · tauto

theorem flipLoop_writes_nodup (ma : ℚ) (folder : String) :
    ∀ (pairs : List (String × Meas)) (fs w nI : List String) (nM : List Meas),
      w.Nodup → (∀ x ∈ w, x ∈ fs) →
      ((pairs.foldl (flipStep ma folder) (fs, w, nI, nM)).2.1).Nodup
      ∧ (∀ x ∈ (pairs.foldl (flipStep ma folder) (fs, w, nI, nM)).2.1,
          x ∈ (pairs.foldl (flipStep ma folder) (fs, w, nI, nM)).1) := by
  intro pairs
  induction pairs with
  | nil => intro fs w nI nM hn hsub; exact ⟨hn, hsub⟩
  | cons p ps ih =>
    intro fs w nI nM hn hsub
    rw [List.foldl_cons]
    cases hq : flipCond ma (steer p.2) <;>
      simp only [flipStep, hq, if_true, if_false, Bool.false_eq_true]
    · exact ih fs w nI nM hn hsub
    · cases hc : fs.contains (joinPath folder ("flipped_" ++ p.1)) <;>
        simp only [if_true, if_false, Bool.false_eq_true]
      · have hpath : joinPath folder ("flipped_" ++ p.1) ∉ fs := by simp at hc; exact hc
        apply ih
        · rw [List.nodup_append]
          refine ⟨hn, List.nodup_singleton _, ?_⟩
          intro x hx
          simp only [List.mem_singleton]
          intro hxe
          exact hpath (hxe ▸ hsub x hx)
        · intro x hx
          rcases List.mem_append.mp hx with h | h
          · exact List.mem_cons_of_mem _ (hsub x h)
          · simp only [List.mem_singleton] at h
            subst h
            exact List.mem_cons_self _ _
      · have hpath : joinPath folder ("flipped_" ++ p.1) ∈ fs := by simp at hc; exact hc
        exact ih fs w _ _ hn hsub

theorem flipLoop_no_new_writes (ma : ℚ) (folder : String) :
    ∀ (pairs : List (String × Meas)) (fs w nI : List String) (nM : List Meas),
      (∀ p ∈ pairs, flipCond ma (steer p.2) = true → flippedPath folder p ∈ fs) →
      (pairs.foldl (flipStep ma folder) (fs, w, nI, nM)).2.1 = w
      ∧ (pairs.foldl (flipStep ma folder) (fs, w, nI, nM)).1 = fs := by
  intro pairs
  induction pairs with
  | nil => intro fs w nI nM _; exact ⟨rfl, rfl⟩
  | cons p ps ih =>
    intro fs w nI nM hall
    rw [List.foldl_cons]
    cases hq : flipCond ma (steer p.2) <;>
      simp only [flipStep, hq, if_true, if_false, Bool.false_eq_true]
    · exact ih fs w nI nM (fun x hx hqx => hall x (List.mem_cons_of_mem _ hx) hqx)
    · have hmem : joinPath folder ("flipped_" ++ p.1) ∈ fs :=
        hall p (List.mem_cons_self _ _) hq
      have hc : fs.contains (joinPath folder ("flipped_" ++ p.1)) = true := by simp [hmem]
      rw [hc]
      simp only [if_true]
      exact ih fs w _ _ (fun x hx hqx => hall x (List.mem_cons_of_mem _ hx) hqx)

theorem flipLoop_eq_foldl (ma : ℚ) (folder : String) (fs images : List String)
    (measurements : List Meas) :
    flipLoop ma folder fs images measurements =
      (images.zip measurements).foldl (flipStep ma folder) (fs, [], [], []) := rfl

theorem flip_images_fst (ma : ℚ) (folder : String) (fs images : List String)
    (measurements : List Meas) :
    (flip_images ma folder fs images measurements).1 =
      (flipLoop ma folder fs images measurements).1 := rfl

theorem flip_images_writes (ma : ℚ) (folder : String) (fs images : List String)
    (measurements : List Meas) :
    (flip_images ma folder fs images measurements).2.1 =
      (flipLoop ma folder fs images measurements).2.1 := rfl

/-- C7: `_flip_images` writes a derived flipped file only when no file exists
at the derived path (and at most once per run), so a second run over the same
image set against the file system left by the first performs no disk write at
all and leaves the file system unchanged — while still producing the same
output, appending the same flipped samples again. -/
theorem C7_flip_idempotence (ma : ℚ) (folder : String) (fs images : List String)
    (measurements : List Meas) :
    (∀ q ∈ (flip_images ma folder fs images measurements).2.1, q ∉ fs)
    ∧ (flip_images ma folder fs images measurements).2.1.Nodup
    ∧ (flip_images ma folder (flip_images ma folder fs images measurements).1
        images measurements).2.1 = []
    ∧ (flip_images ma folder (flip_images ma folder fs images measurements).1
        images measurements).1 = (flip_images ma folder fs images measurements).1
    ∧ (flip_images ma folder (flip_images ma folder fs images measurements).1
        images measurements).2.2 = (flip_images ma folder fs images measurements).2.2 := by
  have hall : ∀ p ∈ images.zip measurements, flipCond ma (steer p.2) = true →
      flippedPath folder p ∈ (flip_images ma folder fs images measurements).1 := by
    intro p hp hq
    rw [flip_images_fst, flipLoop_eq_foldl]
    rw [flipLoop_fs_mem ma folder (images.zip measurements) fs [] [] [] (flippedPath folder p)]
    right
    exact List.mem_map_of_mem _ (List.mem_filter.mpr ⟨hp, hq⟩)
  have hsecond := flipLoop_no_new_writes ma folder (images.zip measurements)
    (flip_images ma folder fs images measurements).1 [] [] [] hall
  refine ⟨?_, ?_, ?_, ?_, ?_⟩
  · intro q hq
    rw [flip_images_writes, flipLoop_eq_foldl] at hq
    rw [flipLoop_writes_mem ma folder (images.zip measurements) fs [] [] [] q] at hq
    rcases hq with h | h
    · cases h
    · exact h.2
  · rw [flip_images_writes, flipLoop_eq_foldl]
    exact (flipLoop_writes_nodup ma folder (images.zip measurements) fs [] [] []
      List.nodup_nil (fun x hx => absurd hx (List.not_mem_nil x))).1
  · rw [flip_images_writes, flipLoop_eq_foldl]
    exact hsecond.1
  · rw [flip_images_fst, flip_images_fst, flipLoop_eq_foldl]
    exact hsecond.2
  · have h1 := flipLoop_new ma folder (images.zip measurements)
      (flip_images ma folder fs images measurements).1 [] [] []
    have h2 := flipLoop_new ma folder (images.zip measurements) fs [] [] []
    conv =>
      lhs
      rw [flip_images, flipLoop_eq_foldl]
    conv =>
      rhs
      rw [flip_images, flipLoop_eq_foldl]
    rw [h1.1, h1.2, h2.1, h2.2]

theorem C7_flip_idempotence_witness :
    ("IMG/flipped_a.jpg" ∉ ([] : List String))
    ∧ (flip_images 0 "IMG" (flip_images 0 "IMG" [] ["a.jpg"] [((0:ℚ), (0:ℚ), (0:ℚ))]).1
        ["a.jpg"] [((0:ℚ), (0:ℚ), (0:ℚ))]).2.1 = []
    ∧ (flip_images 0 "IMG" (flip_images 0 "IMG" [] ["a.jpg"] [((0:ℚ), (0:ℚ), (0:ℚ))]).1
        ["a.jpg"] [((0:ℚ), (0:ℚ), (0:ℚ))]).2.2 =
      (flip_images 0 "IMG" [] ["a.jpg"] [((0:ℚ), (0:ℚ), (0:ℚ))]).2.2 := by
  have h := C7_flip_idempotence 0 "IMG" [] ["a.jpg"] [((0:ℚ), (0:ℚ), (0:ℚ))]
  refine ⟨h.1 "IMG/flipped_a.jpg" ?_, h.2.2.1, h.2.2.2.2⟩
  show "IMG/flipped_a.jpg" ∈ (flip_images 0 "IMG" [] ["a.jpg"] [((0:ℚ), (0:ℚ), (0:ℚ))]).2.1
  decide

/-- C6: whenever `_flip_images` returns, its output is the original parallel
sequences with, appended in order, exactly one derived sample per qualifying
input sample (image renamed `'flipped_' + name`, steering angle negated,
throttle and brake unchanged) and none for non-qualifying samples — BUT on a
nonempty input in which no sample qualifies (first conjunct: one sample with
steering `0` and `flip_min_angle = 1`) the function does not return at all:
`np.append(measurements, [], axis = 0)` concatenates the `(n, 3)` measurement
array with a `(0,)` empty array and raises `ValueError`, where the claim (and
the spec's appending contract) require the unchanged dataset back. -/
theorem C6_flip_correctness :
    ((flip_images 1 "IMG" [] ["a.jpg"] [((0:ℚ), (0:ℚ), (0:ℚ))]).2.2 =
      .error "ValueError: all the input array dimensions must match")
    ∧ (∀ (ma : ℚ) (folder : String) (fs images : List String) (measurements : List Meas)
        (i : List String) (m : List Meas),
        (flip_images ma folder fs images measurements).2.2 = .ok (i, m) →
        i = images ++ ((images.zip measurements).filter
            (fun p => flipCond ma (steer p.2))).map (fun p => "flipped_" ++ p.1)
        ∧ m = measurements ++ ((images.zip measurements).filter
            (fun p => flipCond ma (steer p.2))).map
              (fun p => (-(steer p.2), p.2.2.1, p.2.2.2))) := by
  constructor
  · rfl
  · intro ma folder fs images measurements i m h
    have hnew := flipLoop_new ma folder (images.zip measurements) fs [] [] []
    rw [show (flip_images ma folder fs images measurements).2.2 =
        (if (flipLoop ma folder fs images measurements).2.2.2.isEmpty
            && !measurements.isEmpty then
          .error "ValueError: all the input array dimensions must match"
        else .ok (images ++ (flipLoop ma folder fs images measurements).2.2.1,
          measurements ++ (flipLoop ma folder fs images measurements).2.2.2)) from rfl] at h
    split at h
    · cases h
    · simp only [Except.ok.injEq, Prod.mk.injEq] at h
      rw [← h.1, ← h.2, flipLoop_eq_foldl, hnew.1, hnew.2]
      simp

theorem C6_flip_correctness_witness :
    (["a.jpg", "b.jpg"] : List String) ++
        (((["a.jpg", "b.jpg"] : List String).zip
            ([((1:ℚ), (0:ℚ), (0:ℚ)), ((0:ℚ), (0:ℚ), (0:ℚ))] : List Meas)).filter
          (fun p => flipCond 1 (steer p.2))).map (fun p => "flipped_" ++ p.1) =
      ["a.jpg", "b.jpg", "flipped_a.jpg"]
    ∧ ([((1:ℚ), (0:ℚ), (0:ℚ)), ((0:ℚ), (0:ℚ), (0:ℚ))] : List Meas) ++
        (((["a.jpg", "b.jpg"] : List String).zip
            ([((1:ℚ), (0:ℚ), (0:ℚ)), ((0:ℚ), (0:ℚ), (0:ℚ))] : List Meas)).filter
          (fun p => flipCond 1 (steer p.2))).map
            (fun p => (-(steer p.2), p.2.2.1, p.2.2.2)) =
      [((1:ℚ), (0:ℚ), (0:ℚ)), ((0:ℚ), (0:ℚ), (0:ℚ)), ((-1:ℚ), (0:ℚ), (0:ℚ))] := by
  have h := (C6_flip_correctness).2 1 "IMG" [] ["a.jpg", "b.jpg"]
    [((1:ℚ), (0:ℚ), (0:ℚ)), ((0:ℚ), (0:ℚ), (0:ℚ))]
    ["a.jpg", "b.jpg", "flipped_a.jpg"]
    [((1:ℚ), (0:ℚ), (0:ℚ)), ((0:ℚ), (0:ℚ), (0:ℚ)), ((-1:ℚ), (0:ℚ), (0:ℚ))]
    rfl
  exact ⟨h.1.symm, h.2.symm⟩

/-! ### Batch generator lemmas -/

theorem map_getD_range {α : Type} [Inhabited α] :
    ∀ (xs : List α), (List.range xs.length).map (fun i => xs.getD i default) = xs := by
  intro xs
  induction xs with
  | nil => rfl
  | cons x t ih =>
    rw [List.length_cons, List.range_succ_eq_map, List.map_cons, List.map_map]
    refine congrArg (x :: ·) ?_
    calc (List.range t.length).map ((fun i => (x :: t).getD i default) ∘ (· + 1))
        = (List.range t.length).map (fun i => t.getD i default) := by
          apply List.map_congr_left
          intro i _
          rfl
      _ = t := ih

theorem applyPerm_length {α : Type} [Inhabited α] (p : List Nat) (xs : List α) :
    (applyPerm p xs).length = p.length := List.length_map p _

theorem applyPerm_perm {α : Type} [Inhabited α] (p : List Nat) (xs : List α)
    (hp : p.Perm (List.range xs.length)) : (applyPerm p xs).Perm xs := by
  have h := hp.map (fun i => xs.getD i default)
  rw [map_getD_range xs] at h
  exact h

theorem applyPerm_zip {α β : Type} [Inhabited α] [Inhabited β] (p : List Nat)
    (xs : List α) (ys : List β) (hlen : xs.length = ys.length)
    (hmem : ∀ i ∈ p, i < xs.length) :
    (applyPerm p xs).zip (applyPerm p ys) = applyPerm p (xs.zip ys) := by
  rw [applyPerm, applyPerm, applyPerm, List.zip_map']
  apply List.map_congr_left
  intro i hi
  have hx : i < xs.length := hmem i hi
  have hy : i < ys.length := hlen ▸ hx
  have hz : i < (xs.zip ys).length := by rw [List.length_zip]; omega
  rw [List.getD_eq_getElem xs default hx, List.getD_eq_getElem ys default hy,
    List.getD_eq_getElem (xs.zip ys) default hz]
  exact (List.getElem_zip ..).symm

theorem offsetsCeil_zero (b : Nat) (hb : 0 < b) : (0 + b - 1) / b = 0 :=
  Nat.div_eq_of_lt (by omega)

theorem offsetsCeil_succ (n b : Nat) (hb : 0 < b) (hn : 0 < n) :
    (n + b - 1) / b = ((n - b) + b - 1) / b + 1 := by
  rcases Nat.le_total n b with h | h
  · have h1 : n - b = 0 := by omega
    rw [h1, offsetsCeil_zero b hb]
    exact Nat.div_eq_of_lt_le (by omega) (by omega)
  · have h1 : n + b - 1 = (n - b + b - 1) + b := by omega
    rw [h1, Nat.add_div_right _ hb]

theorem offsets_rec (n b : Nat) (hb : 0 < b) (hn : 0 < n) :
    offsets n b = 0 :: (offsets (n - b) b).map (· + b) := by
  rw [offsets, offsets, offsetsCeil_succ n b hb hn, List.range_succ_eq_map, List.map_cons,
    List.map_map, List.map_map]
  congr 1
  · exact Nat.zero_mul b
  · apply List.map_congr_left
    intro i _
    show (i + 1) * b = i * b + b
    ring

theorem offsets_nil (b : Nat) (hb : 0 < b) : offsets 0 b = [] := by
  rw [offsets, offsetsCeil_zero b hb]
  rfl

theorem chunks_flatten {α : Type} (b : Nat) (hb : 0 < b) :
    ∀ (n : Nat) (xs : List α), xs.length = n →
      ((offsets n b).map (fun o => (xs.drop o).take b)).flatten = xs := by
  intro n
  induction n using Nat.strong_induction_on with
  | _ n ih =>
    intro xs hxs
    rcases Nat.eq_zero_or_pos n with h0 | hpos
    · subst h0
      rw [offsets_nil b hb]
      exact (List.eq_nil_of_length_eq_zero hxs).symm
    · rw [offsets_rec n b hb hpos, List.map_cons, List.map_map, List.flatten_cons]
      have hrest : ((offsets (n - b) b).map ((fun o => (xs.drop o).take b) ∘ (· + b))) =
          (offsets (n - b) b).map (fun o => ((xs.drop b).drop o).take b) := by
        apply List.map_congr_left
        intro o _
        show ((xs.drop (o + b)).take b) = ((xs.drop b).drop o).take b
        rw [List.drop_drop, Nat.add_comm b o]
      rw [hrest]
      have hlen : (xs.drop b).length = n - b := by
        rw [List.length_drop, hxs]
      rw [ih (n - b) (by omega) (xs.drop b) hlen, List.drop_zero, List.take_append_drop]

theorem ceil_mul_ge (n b : Nat) (hb : 0 < b) : n ≤ ((n + b - 1) / b) * b := by
  have hdm := Nat.div_add_mod (n + b - 1) b
  have hr := Nat.mod_lt (n + b - 1) hb
  rw [Nat.mul_comm]
  omega

theorem ceil_pred_mul_lt (n b : Nat) (hb : 0 < b) (hn : 0 < n) :
    (((n + b - 1) / b) - 1) * b < n := by
  have hdm := Nat.div_add_mod (n + b - 1) b
  have hr := Nat.mod_lt (n + b - 1) hb
  rw [Nat.sub_one_mul, Nat.mul_comm]
  omega

theorem ceil_pos (n b : Nat) (hb : 0 < b) (hn : 0 < n) : 0 < (n + b - 1) / b := by
  have hdm := Nat.div_add_mod (n + b - 1) b
  have hr := Nat.mod_lt (n + b - 1) hb
  by_contra h
  have hq0 : (n + b - 1) / b = 0 := Nat.eq_zero_of_not_pos h
  rw [hq0, Nat.mul_zero] at hdm
  omega

theorem range_dropLast (q : Nat) : (List.range q).dropLast = List.range (q - 1) := by
  cases q with
  | zero => rfl
  | succ q => rw [List.range_succ, List.dropLast_concat, Nat.add_sub_cancel]

theorem offsets_dropLast (n b : Nat) :
    (offsets n b).dropLast = (List.range ((n + b - 1) / b - 1)).map (· * b) := by
  rw [offsets, ← List.map_dropLast, range_dropLast]

theorem offsets_getLastD (n b : Nat) (hb : 0 < b) (hn : 0 < n) :
    (offsets n b).getLastD 0 = ((n + b - 1) / b - 1) * b := by
  have hq := ceil_pos n b hb hn
  rw [offsets, show (n + b - 1) / b = ((n + b - 1) / b - 1) + 1 by omega, List.range_succ,
    List.map_append]
  exact List.getLastD_concat ..

theorem getLastD_map_of_ne_nil {α β : Type} (f : α → β) (l : List α) (d : β) (e : α)
    (h : l ≠ []) : (l.map f).getLastD d = f (l.getLastD e) := by
  rw [List.getLastD_eq_getLast?, List.getLastD_eq_getLast?, List.getLast?_map,
    List.getLast?_eq_getLast l h]
  rfl

theorem chunks_dropLast_length {α : Type} (b : Nat) (hb : 0 < b) (xs : List α) (c : List α)
    (hc : c ∈ ((offsets xs.length b).map (fun o => (xs.drop o).take b)).dropLast) :
    c.length = b := by
  rw [← List.map_dropLast, offsets_dropLast] at hc
  rw [List.map_map] at hc
  obtain ⟨i, hi, rfl⟩ := List.mem_map.mp hc
  rw [List.mem_range] at hi
  show ((xs.drop (i * b)).take b).length = b
  rw [List.length_take, List.length_drop]
  have h1 : (i + 1) * b ≤ ((xs.length + b - 1) / b - 1) * b := Nat.mul_le_mul_right b (by omega)
  have h2 : ((xs.length + b - 1) / b - 1) * b < xs.length := by
    apply ceil_pred_mul_lt xs.length b hb
    by_contra h0
    have hx0 : xs.length = 0 := by omega
    rw [hx0] at hi
    have : (0 + b - 1) / b = 0 := offsetsCeil_zero b hb
    omega
  have h3 : i * b + b ≤ xs.length := by
    have hsm : (i + 1) * b = i * b + 1 * b := Nat.add_mul i 1 b
    have hob : 1 * b = b := Nat.one_mul b
    omega
  omega

theorem chunks_getLastD_length {α : Type} (b : Nat) (hb : 0 < b) (xs : List α)
    (hn : 0 < xs.length) (hnd : ¬ b ∣ xs.length) :
    (((offsets xs.length b).map (fun o => (xs.drop o).take b)).getLastD []).length =
      xs.length % b := by
  have hne : offsets xs.length b ≠ [] := by
    rw [offsets_rec xs.length b hb hn]
    exact List.cons_ne_nil _ _
  rw [getLastD_map_of_ne_nil _ _ _ 0 hne, offsets_getLastD xs.length b hb hn]
  set q := (xs.length + b - 1) / b with hq
  have h1 : (q - 1) * b < xs.length := ceil_pred_mul_lt xs.length b hb hn
  have h2 : xs.length ≤ q * b := ceil_mul_ge xs.length b hb
  have h3 : xs.length - (q - 1) * b ≤ b := by
    have hq1 : 0 < q := ceil_pos xs.length b hb hn
    have : q * b = (q - 1) * b + b := by
      rw [Nat.sub_one_mul]
      have : b ≤ q * b := by
        calc b = 1 * b := (Nat.one_mul b).symm
          _ ≤ q * b := Nat.mul_le_mul_right b hq1
      omega
    omega
  have h4 : xs.length - (q - 1) * b < b := by
    rcases Nat.lt_or_ge (xs.length - (q - 1) * b) b with h | h
    · exact h
    · exfalso
      have hx : xs.length = (q - 1) * b + b := by omega
      apply hnd
      refine ⟨q, ?_⟩
      rw [hx]
      have hq1 : 0 < q := ceil_pos xs.length b hb hn
      have e1 : (q - 1) * b = q * b - b := Nat.sub_one_mul q b
      have e2 : b * q = q * b := Nat.mul_comm b q
      have e3 : b ≤ q * b := by
        calc b = 1 * b := (Nat.one_mul b).symm
          _ ≤ q * b := Nat.mul_le_mul_right b hq1
      omega
  rw [List.length_take, List.length_drop]
  have hmod : xs.length % b = xs.length - (q - 1) * b := by
    have hx : xs.length = b * (q - 1) + (xs.length - (q - 1) * b) := by
      rw [Nat.mul_comm]
      omega
    calc xs.length % b = (b * (q - 1) + (xs.length - (q - 1) * b)) % b := by rw [← hx]
      _ = (xs.length - (q - 1) * b) % b := Nat.mul_add_mod b (q - 1) _
      _ = xs.length - (q - 1) * b := Nat.mod_eq_of_lt h4
  omega

theorem epochData_lengths (σ : Nat → List Nat) (images : List String)
    (measurements : List Meas) (hlen : images.length = measurements.length)
    (hσ : ∀ k, (σ k).Perm (List.range images.length)) :
    ∀ k, (epochData σ images measurements k).1.length = images.length ∧
      (epochData σ images measurements k).2.length = measurements.length := by
  intro k
  induction k with
  | zero =>
    constructor <;> rw [epochData, applyPerm_length, (hσ 0).length_eq, List.length_range]
    exact hlen
  | succ k ih =>
    constructor <;> rw [epochData, applyPerm_length, (hσ (k+1)).length_eq, List.length_range]
    exact hlen

theorem epochData_zip_perm (σ : Nat → List Nat) (images : List String)
    (measurements : List Meas) (hlen : images.length = measurements.length)
    (hσ : ∀ k, (σ k).Perm (List.range images.length)) :
    ∀ k, ((epochData σ images measurements k).1.zip
        (epochData σ images measurements k).2).Perm (images.zip measurements) := by
  have hmem : ∀ k i, i ∈ σ k → i < images.length := by
    intro k i hi
    have := (hσ k).mem_iff.mp hi
    rwa [List.mem_range] at this
  intro k
  induction k with
  | zero =>
    rw [epochData, applyPerm_zip (σ 0) images measurements hlen (hmem 0)]
    apply applyPerm_perm
    rw [List.length_zip, ← hlen, Nat.min_self]
    exact hσ 0
  | succ k ih =>
    have hl := epochData_lengths σ images measurements hlen hσ k
    rw [epochData]
    rw [applyPerm_zip (σ (k+1)) (epochData σ images measurements k).1
      (epochData σ images measurements k).2 (by rw [hl.1, hl.2, hlen])
      (by intro i hi; rw [hl.1]; exact hmem (k+1) i hi)]
    refine List.Perm.trans ?_ ih
    apply applyPerm_perm
    rw [List.length_zip, hl.1, hl.2, ← hlen, Nat.min_self]
    exact hσ (k+1)

/-- C9: for images and measurements of equal length `n` and a positive batch
size `b`, the generator's entry assertion passes, and for EVERY epoch `k`
(the generator never terminates on its own): the epoch applies one matched
permutation to both sequences (their zip is a permutation of the input zip);
the epoch's batches, concatenated, are exactly the shuffled images and
exactly the steering-angle column (position 0) of the shuffled measurements —
consecutive chunks covering every index exactly once; every chunk except the
last has size `b`; and when `b` does not divide `n` the final chunk has size
`n % b` (not padded, not dropped). -/
theorem C9_generator_batching (b : Nat) (images : List String) (measurements : List Meas)
    (σ : Nat → List Nat) (hb : 0 < b) (hlen : images.length = measurements.length)
    (hσ : ∀ k, (σ k).Perm (List.range images.length)) :
    generator b images measurements σ = .ok (genEpoch b images measurements σ)
    ∧ ∀ k,
      ((epochData σ images measurements k).1.zip
          (epochData σ images measurements k).2).Perm (images.zip measurements)
      ∧ ((genEpoch b images measurements σ k).map Prod.fst).flatten =
          (epochData σ images measurements k).1
      ∧ ((genEpoch b images measurements σ k).map Prod.snd).flatten =
          (epochData σ images measurements k).2.map steer
      ∧ (∀ p ∈ (genEpoch b images measurements σ k).dropLast, p.1.length = b)
      ∧ (0 < images.length → ¬ b ∣ images.length →
          ((genEpoch b images measurements σ k).getLastD ([], [])).1.length =
            images.length % b)
      ∧ (0 < images.length → genEpoch b images measurements σ k ≠ []) := by
  constructor
  · rw [generator, if_pos hlen]
  intro k
  have hl := epochData_lengths σ images measurements hlen hσ k
  have hfst : (genEpoch b images measurements σ k).map Prod.fst =
      (offsets (epochData σ images measurements k).1.length b).map
        (fun o => ((epochData σ images measurements k).1.drop o).take b) := by
    rw [genEpoch, List.map_map, hl.1]
    rfl
  have hsnd1 : (genEpoch b images measurements σ k).map Prod.snd =
      (offsets images.length b).map
        (fun o => (((epochData σ images measurements k).2.map steer).drop o).take b) := by
    rw [genEpoch, List.map_map]
    apply List.map_congr_left
    intro o _
    show (((epochData σ images measurements k).2.drop o).take b).map steer =
      (((epochData σ images measurements k).2.map steer).drop o).take b
    rw [List.map_take, List.map_drop]
  have hlen2 : ((epochData σ images measurements k).2.map steer).length = images.length := by
    rw [List.length_map, hl.2, hlen]
  refine ⟨epochData_zip_perm σ images measurements hlen hσ k, ?_, ?_, ?_, ?_, ?_⟩
  · rw [hfst, chunks_flatten b hb _ _ rfl]
  · rw [hsnd1, ← hlen2, chunks_flatten b hb _ _ rfl]
  · intro p hp
    have hp' : p.1 ∈ ((genEpoch b images measurements σ k).dropLast).map Prod.fst :=
      List.mem_map_of_mem Prod.fst hp
    rw [List.map_dropLast, hfst] at hp'
    exact chunks_dropLast_length b hb _ _ hp'
  · intro hn hnd
    have hne : genEpoch b images measurements σ k ≠ [] := by
      rw [genEpoch, offsets_rec images.length b hb hn]
      exact List.cons_ne_nil _ _
    have hfstlast : ((genEpoch b images measurements σ k).getLastD ([], [])).1 =
        ((genEpoch b images measurements σ k).map Prod.fst).getLastD [] := by
      rw [(getLastD_map_of_ne_nil Prod.fst (genEpoch b images measurements σ k)
        [] ([], []) hne).symm]
    rw [hfstlast, hfst]
    have hn' : 0 < (epochData σ images measurements k).1.length := by rw [hl.1]; exact hn
    have hnd' : ¬ b ∣ (epochData σ images measurements k).1.length := by
      rw [hl.1]; exact hnd
    rw [chunks_getLastD_length b hb _ hn' hnd', hl.1]
  · intro hn
    rw [genEpoch, offsets_rec images.length b hb hn]
    exact List.cons_ne_nil _ _

theorem C9_generator_batching_witness :
    ((genEpoch 4 ["i0", "i1", "i2", "i3", "i4", "i5", "i6", "i7", "i8", "i9"]
        [((0:ℚ), 0, 0), ((0:ℚ), 0, 0), ((0:ℚ), 0, 0), ((0:ℚ), 0, 0), ((0:ℚ), 0, 0),
         ((0:ℚ), 0, 0), ((0:ℚ), 0, 0), ((0:ℚ), 0, 0), ((0:ℚ), 0, 0), ((0:ℚ), 0, 0)]
        (fun _ => List.range 10) 0).map (fun p => p.1.length)) = [4, 4, 2]
    ∧ generator 4 ["i0", "i1", "i2", "i3", "i4", "i5", "i6", "i7", "i8", "i9"]
        [((0:ℚ), 0, 0), ((0:ℚ), 0, 0), ((0:ℚ), 0, 0), ((0:ℚ), 0, 0), ((0:ℚ), 0, 0),
         ((0:ℚ), 0, 0), ((0:ℚ), 0, 0), ((0:ℚ), 0, 0), ((0:ℚ), 0, 0), ((0:ℚ), 0, 0)]
        (fun _ => List.range 10) =
      .ok (genEpoch 4 ["i0", "i1", "i2", "i3", "i4", "i5", "i6", "i7", "i8", "i9"]
        [((0:ℚ), 0, 0), ((0:ℚ), 0, 0), ((0:ℚ), 0, 0), ((0:ℚ), 0, 0), ((0:ℚ), 0, 0),
         ((0:ℚ), 0, 0), ((0:ℚ), 0, 0), ((0:ℚ), 0, 0), ((0:ℚ), 0, 0), ((0:ℚ), 0, 0)]
        (fun _ => List.range 10))
    ∧ ((genEpoch 4 ["i0", "i1", "i2", "i3", "i4", "i5", "i6", "i7", "i8", "i9"]
        [((0:ℚ), 0, 0), ((0:ℚ), 0, 0), ((0:ℚ), 0, 0), ((0:ℚ), 0, 0), ((0:ℚ), 0, 0),
         ((0:ℚ), 0, 0), ((0:ℚ), 0, 0), ((0:ℚ), 0, 0), ((0:ℚ), 0, 0), ((0:ℚ), 0, 0)]
        (fun _ => List.range 10) 0).getLastD ([], [])).1.length = 10 % 4
    ∧ genEpoch 4 ["i0", "i1", "i2", "i3", "i4", "i5", "i6", "i7", "i8", "i9"]
        [((0:ℚ), 0, 0), ((0:ℚ), 0, 0), ((0:ℚ), 0, 0), ((0:ℚ), 0, 0), ((0:ℚ), 0, 0),
         ((0:ℚ), 0, 0), ((0:ℚ), 0, 0), ((0:ℚ), 0, 0), ((0:ℚ), 0, 0), ((0:ℚ), 0, 0)]
        (fun _ => List.range 10) 1 ≠ [] := by
  have h := C9_generator_batching 4
    ["i0", "i1", "i2", "i3", "i4", "i5", "i6", "i7", "i8", "i9"]
    [((0:ℚ), 0, 0), ((0:ℚ), 0, 0), ((0:ℚ), 0, 0), ((0:ℚ), 0, 0), ((0:ℚ), 0, 0),
     ((0:ℚ), 0, 0), ((0:ℚ), 0, 0), ((0:ℚ), 0, 0), ((0:ℚ), 0, 0), ((0:ℚ), 0, 0)]
    (fun _ => List.range 10) (by decide) rfl (fun _ => List.Perm.refl _)
  refine ⟨by decide, h.1, (h.2 0).2.2.2.2.1 (by decide) (by decide),
    (h.2 1).2.2.2.2.2 (by decide)⟩

/-! ### Normalizer lemmas -/

theorem nodup_subset_length {α : Type} [DecidableEq α] (l₁ l₂ : List α) (h : l₁.Nodup)
    (hs : l₁ ⊆ l₂) : l₁.length ≤ l₂.length := by
  have h1 : l₁.length = l₁.toFinset.card := (List.toFinset_card_of_nodup h).symm
  have h2 : l₁.toFinset ⊆ l₂.toFinset := fun x hx =>
    List.mem_toFinset.mpr (hs (List.mem_toFinset.mp hx))
  calc l₁.length = l₁.toFinset.card := h1
    _ ≤ l₂.toFinset.card := Finset.card_le_card h2
    _ ≤ l₂.length := l₂.toFinset_card_le

theorem countP_and_split {α : Type} (p r : α → Bool) :
    ∀ (l : List α), l.countP p =
      l.countP (fun a => p a && r a) + l.countP (fun a => p a && !r a) := by
  intro l
  induction l with
  | nil => rfl
  | cons x xs ih =>
    simp only [List.countP_cons, ih]
    cases hr : r x <;> cases hp : p x <;> simp [hr, hp] <;> omega

/-- The per-bin drop selection of `_normalize`: `np.random.choice(bin_angles[0],
size = count - max_wanted, replace = False)` for an over-represented bin,
nothing otherwise. -/
def binDrop (factor : ℚ) (edges : List ℚ) (choose : List Nat → Nat → List Nat)
    (angles : List ℚ) (b : ℚ × ℚ × Bool) : List Nat :=
  if (binIndices angles b).length > maxWanted factor edges angles then
    choose (binIndices angles b) ((binIndices angles b).length - maxWanted factor edges angles)
  else []

theorem dropList_eq_flatten (factor : ℚ) (edges : List ℚ)
    (choose : List Nat → Nat → List Nat) (angles : List ℚ) :
    dropList factor edges choose angles =
      ((binsOf edges).map (binDrop factor edges choose angles)).flatten := by
  rw [dropList]
  have haux : ∀ (bs : List (ℚ × ℚ × Bool)) (init : List Nat),
      bs.foldl (fun acc b =>
        if (binIndices angles b).length > maxWanted factor edges angles then
          acc ++ choose (binIndices angles b)
            ((binIndices angles b).length - maxWanted factor edges angles)
        else acc) init =
        init ++ (bs.map (binDrop factor edges choose angles)).flatten := by
    intro bs
    induction bs with
    | nil => intro init; simp
    | cons b rest ih =>
      intro init
      rw [List.foldl_cons, List.map_cons, List.flatten_cons]
      by_cases hgt : (binIndices angles b).length > maxWanted factor edges angles
      · rw [if_pos hgt, ih, binDrop, if_pos hgt, List.append_assoc]
      · rw [if_neg hgt, ih, binDrop, if_neg hgt, List.nil_append]
  exact haux (binsOf edges) []

theorem binIndices_nodup (angles : List ℚ) (b : ℚ × ℚ × Bool) :
    (binIndices angles b).Nodup := by
  rw [binIndices]
  have hsub : List.Sublist (angles.enum.filter (fun p => binMem b p.2)) angles.enum :=
    List.filter_sublist _
  have hsub2 := hsub.map Prod.fst
  rw [List.enum_map_fst] at hsub2
  exact (List.nodup_range _).sublist hsub2

theorem mem_binIndices (angles : List ℚ) (b : ℚ × ℚ × Bool) (x : Nat) :
    x ∈ binIndices angles b ↔ ∃ a, angles[x]? = some a ∧ binMem b a = true := by
  rw [binIndices]
  simp only [List.mem_map, List.mem_filter]
  constructor
  · rintro ⟨⟨i, a⟩, ⟨hmem, hq⟩, hfst⟩
    cases hfst
    exact ⟨a, List.mk_mem_enum_iff_getElem?.mp hmem, hq⟩
  · rintro ⟨a, hget, hbm⟩
    exact ⟨(x, a), ⟨List.mk_mem_enum_iff_getElem?.mpr hget, hbm⟩, rfl⟩

theorem binsOf_length (edges : List ℚ) : (binsOf edges).length = edges.length - 1 := by
  rw [binsOf, List.length_map, List.length_range]

theorem binsOf_get (edges : List ℚ) (j : Nat) (hj : j < (binsOf edges).length) :
    (binsOf edges).get ⟨j, hj⟩ =
      (edges.getD j 0, edges.getD (j+1) 0, j + 2 == edges.length) := by
  simp [binsOf]

theorem edges_getD_mono (edges : List ℚ) (h : edges.Chain' (· ≤ ·)) (i j : Nat)
    (hij : i ≤ j) (hj : j < edges.length) : edges.getD i 0 ≤ edges.getD j 0 := by
  rcases Nat.eq_or_lt_of_le hij with rfl | hlt
  · exact le_refl _
  · have hp : edges.Pairwise (· ≤ ·) := List.chain'_iff_pairwise.mp h
    have hi : i < edges.length := Nat.lt_trans hlt hj
    rw [List.getD_eq_getElem _ _ hi, List.getD_eq_getElem _ _ hj]
    exact List.pairwise_iff_get.mp hp ⟨i, hi⟩ ⟨j, hj⟩ hlt

theorem binMem_disjoint_lt (edges : List ℚ) (h : edges.Chain' (· ≤ ·)) (j k : Nat)
    (hj : j < (binsOf edges).length) (hk : k < (binsOf edges).length) (hjk : j < k)
    (a : ℚ) (h1 : binMem ((binsOf edges).get ⟨j, hj⟩) a = true)
    (h2 : binMem ((binsOf edges).get ⟨k, hk⟩) a = true) : False := by
  rw [binsOf_get] at h1 h2
  have hklen : k < edges.length - 1 := by rw [← binsOf_length edges]; exact hk
  have hflag : (j + 2 == edges.length) = false := by
    have : j + 2 < edges.length := by omega
    simp only [beq_eq_false_iff_ne, ne_eq]
    omega
  rw [binMem, hflag] at h1
  simp only [Bool.false_eq_true, if_false, Bool.and_eq_true, decide_eq_true_eq] at h1
  rw [binMem] at h2
  simp only [Bool.and_eq_true, decide_eq_true_eq] at h2
  have hmono : edges.getD (j+1) 0 ≤ edges.getD k 0 := by
    apply edges_getD_mono edges h (j+1) k (by omega) (by omega)
  have := h1.2
  have := h2.1
  have : a < a := lt_of_lt_of_le h1.2 (le_trans hmono h2.1)
  exact absurd this (lt_irrefl a)

theorem binMem_disjoint (edges : List ℚ) (h : edges.Chain' (· ≤ ·)) (j k : Nat)
    (hj : j < (binsOf edges).length) (hk : k < (binsOf edges).length) (hjk : j ≠ k)
    (a : ℚ) (h1 : binMem ((binsOf edges).get ⟨j, hj⟩) a = true)
    (h2 : binMem ((binsOf edges).get ⟨k, hk⟩) a = true) : False := by
  rcases Nat.lt_or_ge j k with hlt | hge
  · exact binMem_disjoint_lt edges h j k hj hk hlt a h1 h2
  · have hlt : k < j := by omega
    exact binMem_disjoint_lt edges h k j hk hj hlt a h2 h1

theorem countP_npDelete {α : Type} (xs : List α) (d : List Nat) (p : α → Bool) :
    (npDelete xs d).countP p = xs.enum.countP (fun z => p z.2 && !(d.contains z.1)) := by
  rw [npDelete, List.countP_map, List.countP_filter]
  rfl

theorem binIndices_length_countP (measurements : List Meas) (b : ℚ × ℚ × Bool) :
    (binIndices (measurements.map steer) b).length =
      measurements.enum.countP (fun z => binMem b (steer z.2)) := by
  rw [binIndices, List.length_map, ← List.countP_eq_length_filter, List.enum_map,
    List.countP_map]
  rfl

theorem filter_map_snd_enum {α : Type} (xs : List α) (p : α → Bool) :
    (xs.enum.filter (fun z => p z.2)).map Prod.snd = xs.filter p := by
  conv_rhs => rw [← List.enum_map_snd xs, List.filter_map]
  congr 1

theorem filter_npDelete_aux {α : Type} (d : List Nat) (p : α → Bool) :
    ∀ (xs : List α) (n : Nat), (∀ z ∈ List.enumFrom n xs, p z.2 = true → ¬ z.1 ∈ d) →
      (((List.enumFrom n xs).filter (fun z => !(d.contains z.1))).map Prod.snd).filter p
        = xs.filter p := by
  intro xs
  induction xs with
  | nil => intro n _; rfl
  | cons x t ih =>
    intro n h
    have hrest : ∀ z ∈ List.enumFrom (n+1) t, p z.2 = true → ¬ z.1 ∈ d := by
      intro z hz
      exact h z (List.mem_cons_of_mem _ hz)
    rw [show List.enumFrom n (x :: t) = (n, x) :: List.enumFrom (n+1) t from rfl,
      List.filter_cons]
    by_cases hmem : n ∈ d
    · have hr : (!(d.contains n)) = false := by simp [hmem]
      rw [if_neg (by rw [hr]; exact Bool.false_ne_true)]
      have hpx : p x = false := by
        cases hpx : p x
        · rfl
        · exact absurd hmem (h (n, x) (List.mem_cons_self _ _) hpx)
      rw [List.filter_cons, if_neg (by rw [hpx]; exact Bool.false_ne_true)]
      exact ih (n+1) hrest
    · have hr : (!(d.contains n)) = true := by simp [hmem]
      rw [if_pos hr, List.map_cons, List.filter_cons, List.filter_cons]
      cases hpx : p x
      · rw [if_neg Bool.false_ne_true, if_neg Bool.false_ne_true]
        exact ih (n+1) hrest
      · rw [if_pos rfl, if_pos rfl]
        rw [ih (n+1) hrest]

theorem filter_npDelete {α : Type} (xs : List α) (d : List Nat) (p : α → Bool)
    (hnd : ∀ z ∈ xs.enum, p z.2 = true → ¬ z.1 ∈ d) :
    (npDelete xs d).filter p = xs.filter p := by
  rw [npDelete]
  exact filter_npDelete_aux d p xs 0 hnd

theorem npDelete_sublist {α : Type} (xs : List α) (d : List Nat) :
    List.Sublist (npDelete xs d) xs := by
  rw [npDelete]
  have h : List.Sublist (xs.enum.filter (fun z => !(d.contains z.1))) xs.enum :=
    List.filter_sublist xs.enum
  have h2 := h.map Prod.snd
  rwa [List.enum_map_snd] at h2

theorem mem_binIndices_of_enum (measurements : List Meas) (b : ℚ × ℚ × Bool)
    (z : Nat × Meas) (hz : z ∈ measurements.enum) (hq : binMem b (steer z.2) = true) :
    z.1 ∈ binIndices (measurements.map steer) b := by
  rw [mem_binIndices]
  refine ⟨steer z.2, ?_, hq⟩
  rw [List.getElem?_map]
  rw [List.mk_mem_enum_iff_getElem?] at hz
  rw [hz]
  rfl

theorem enum_mem_of_binIndices (measurements : List Meas) (b : ℚ × ℚ × Bool)
    (x : Nat) (hx : x ∈ binIndices (measurements.map steer) b) :
    ∃ mm : Meas, (x, mm) ∈ measurements.enum ∧ binMem b (steer mm) = true := by
  rw [mem_binIndices] at hx
  obtain ⟨a, hget, hbm⟩ := hx
  rw [List.getElem?_map] at hget
  rcases hmm : measurements[x]? with _ | mm
  · rw [hmm] at hget; cases hget
  · rw [hmm] at hget
    have hga : steer mm = a := Option.some.inj hget
    refine ⟨mm, List.mk_mem_enum_iff_getElem?.mpr hmm, ?_⟩
    rw [hga]
    exact hbm

/-- C5: after `_normalize` with a nonnegative factor, sorted bin edges, and any
without-replacement random choice (any function `choose` returning the
requested number of distinct indices from the given bin), every bin — with
membership `angle >= left AND angle < right`, except the last bin which also
includes `angle == right` — retains at most
`max_wanted = floor(mean(original bin counts) * factor)` samples; a bin whose
original count is at most `max_wanted` keeps all of its samples unchanged; and
the retained samples keep their relative order (the output sequences are
sublists of the inputs). -/
theorem C5_normalizer_bound (factor : ℚ) (edges : List ℚ)
    (choose : List Nat → Nat → List Nat) (images : List String) (measurements : List Meas)
    (i : List String) (m : List Meas) (j : Nat)
    (hF : 0 ≤ factor)
    (hedges : edges.Chain' (· ≤ ·))
    (hchoose : ∀ l k, l.Nodup → k ≤ l.length →
      (choose l k).length = k ∧ (choose l k).Nodup ∧ ∀ x ∈ choose l k, x ∈ l)
    (hok : normalizeData factor edges choose images measurements = .ok (i, m))
    (hj : j < (binsOf edges).length) :
    m.countP (fun x => binMem ((binsOf edges).get ⟨j, hj⟩) (steer x)) ≤
        maxWanted factor edges (measurements.map steer)
    ∧ ((binIndices (measurements.map steer) ((binsOf edges).get ⟨j, hj⟩)).length ≤
          maxWanted factor edges (measurements.map steer) →
        m.filter (fun x => binMem ((binsOf edges).get ⟨j, hj⟩) (steer x)) =
          measurements.filter (fun x => binMem ((binsOf edges).get ⟨j, hj⟩) (steer x)))
    ∧ List.Sublist m measurements ∧ List.Sublist i images := by
  simp only [normalizeData] at hok
  by_cases hemp : measurements.isEmpty
  · rw [if_pos hemp] at hok; cases hok
  rw [if_neg hemp] at hok
  simp only [Except.ok.injEq, Prod.mk.injEq] at hok
  obtain ⟨hi, hm⟩ := hok
  set angles := measurements.map steer with hangles
  set M := maxWanted factor edges angles with hMdef
  set drop := dropList factor edges choose angles with hdropdef
  set b := (binsOf edges).get ⟨j, hj⟩ with hbdef
  -- membership in the drop list comes from some over-represented bin
  have hmemdrop : ∀ x, x ∈ drop → ∃ (k' : Nat) (hk' : k' < (binsOf edges).length),
      (binIndices angles ((binsOf edges).get ⟨k', hk'⟩)).length > M ∧
      x ∈ choose (binIndices angles ((binsOf edges).get ⟨k', hk'⟩))
        ((binIndices angles ((binsOf edges).get ⟨k', hk'⟩)).length - M) := by
    intro x hx
    rw [hdropdef, dropList_eq_flatten, List.mem_flatten] at hx
    obtain ⟨s, hs, hxs⟩ := hx
    rw [List.mem_map] at hs
    obtain ⟨bb, hbb, rfl⟩ := hs
    obtain ⟨⟨k', hk'⟩, hget⟩ := List.mem_iff_get.mp hbb
    rw [binDrop] at hxs
    by_cases hgt : (binIndices angles bb).length > maxWanted factor edges angles
    · rw [if_pos hgt] at hxs
      subst hget
      exact ⟨k', hk', hgt, hxs⟩
    · rw [if_neg hgt] at hxs
      cases hxs
  -- a dropped index lying in bin j must have been chosen from bin j itself
  have hdrop_in_bin : ∀ x, x ∈ drop → x ∈ binIndices angles b →
      (binIndices angles b).length > M ∧
      x ∈ choose (binIndices angles b) ((binIndices angles b).length - M) := by
    intro x hx hxb
    obtain ⟨k', hk', hgt, hxch⟩ := hmemdrop x hx
    have hnodk := binIndices_nodup angles ((binsOf edges).get ⟨k', hk'⟩)
    have hsubch := (hchoose (binIndices angles ((binsOf edges).get ⟨k', hk'⟩))
      ((binIndices angles ((binsOf edges).get ⟨k', hk'⟩)).length - M) hnodk
      (Nat.sub_le _ _)).2.2
    have hxk : x ∈ binIndices angles ((binsOf edges).get ⟨k', hk'⟩) := hsubch x hxch
    by_cases hjk : j = k'
    · subst hjk
      exact ⟨hgt, hxch⟩
    · exfalso
      rw [mem_binIndices] at hxb hxk
      obtain ⟨a1, hg1, hb1⟩ := hxb
      obtain ⟨a2, hg2, hb2⟩ := hxk
      rw [hg1] at hg2
      have ha : a1 = a2 := Option.some.inj hg2
      subst ha
      exact binMem_disjoint edges hedges j k' hj hk' hjk a1 hb1 hb2
  -- counting: total in bin j, dropped in bin j, retained in bin j
  have hT : (binIndices angles b).length =
      measurements.enum.countP (fun z => binMem b (steer z.2)) :=
    binIndices_length_countP measurements b
  have hA : m.countP (fun x => binMem b (steer x)) =
      measurements.enum.countP
        (fun z => binMem b (steer z.2) && !(drop.contains z.1)) := by
    rw [← hm]
    exact countP_npDelete measurements drop (fun x => binMem b (steer x))
  have hsplit := countP_and_split (fun z : Nat × Meas => binMem b (steer z.2))
    (fun z => drop.contains z.1) measurements.enum
  have hbound : m.countP (fun x => binMem b (steer x)) ≤ M := by
    by_cases hgt : (binIndices angles b).length > M
    · -- the chosen indices inject into the dropped-and-in-bin count
      have hnod := binIndices_nodup angles b
      have hch := hchoose (binIndices angles b) ((binIndices angles b).length - M)
        hnod (Nat.sub_le _ _)
      have hsubset : ∀ x ∈ choose (binIndices angles b) ((binIndices angles b).length - M),
          x ∈ (measurements.enum.filter
            (fun z => binMem b (steer z.2) && drop.contains z.1)).map Prod.fst := by
        intro x hx
        have hxb : x ∈ binIndices angles b := hch.2.2 x hx
        obtain ⟨mm, hmm, hbmm⟩ := enum_mem_of_binIndices measurements b x hxb
        have hxdrop : x ∈ drop := by
          rw [hdropdef, dropList_eq_flatten, List.mem_flatten]
          refine ⟨binDrop factor edges choose angles b, List.mem_map_of_mem _ ?_, ?_⟩
          · exact List.get_mem (binsOf edges) j hj
          · rw [binDrop, if_pos hgt]
            exact hx
        rw [List.mem_map]
        refine ⟨(x, mm), List.mem_filter.mpr ⟨hmm, ?_⟩, rfl⟩
        rw [hbmm]
        simp [hxdrop]
      have hfstnodup : ((measurements.enum.filter
          (fun z => binMem b (steer z.2) && drop.contains z.1)).map Prod.fst).Nodup := by
        have hsub : List.Sublist (measurements.enum.filter
            (fun z => binMem b (steer z.2) && drop.contains z.1)) measurements.enum :=
          List.filter_sublist _
        have hsub2 := hsub.map Prod.fst
        rw [List.enum_map_fst] at hsub2
        exact (List.nodup_range _).sublist hsub2
      have hDge : (binIndices angles b).length - M ≤
          measurements.enum.countP (fun z => binMem b (steer z.2) && drop.contains z.1) := by
        rw [List.countP_eq_length_filter]
        calc (binIndices angles b).length - M
            = (choose (binIndices angles b) ((binIndices angles b).length - M)).length :=
              hch.1.symm
          _ ≤ ((measurements.enum.filter
                (fun z => binMem b (steer z.2) && drop.contains z.1)).map Prod.fst).length :=
              nodup_subset_length _ _ hch.2.1 hsubset
          _ = (measurements.enum.filter
                (fun z => binMem b (steer z.2) && drop.contains z.1)).length :=
              List.length_map _ _
      rw [hA]
      rw [hT] at hgt hDge
      omega
    · -- bin j is not over-represented: retained ≤ total ≤ M
      rw [hA]
      rw [hT] at hgt
      omega
  refine ⟨hbound, ?_, ?_, ?_⟩
  · intro hunder
    rw [← hm]
    apply filter_npDelete
    intro z hz hq hzdrop
    have hzb : z.1 ∈ binIndices angles b := mem_binIndices_of_enum measurements b z hz hq
    have := (hdrop_in_bin z.1 hzdrop hzb).1
    omega
  · rw [← hm]
    exact npDelete_sublist measurements drop
  · rw [← hi]
    exact npDelete_sublist images drop

theorem take_choose_valid : ∀ (l : List Nat) (k : Nat), l.Nodup → k ≤ l.length →
    ((fun (s : List Nat) (c : Nat) => s.take c) l k).length = k
    ∧ ((fun (s : List Nat) (c : Nat) => s.take c) l k).Nodup
    ∧ ∀ x ∈ (fun (s : List Nat) (c : Nat) => s.take c) l k, x ∈ l := by
  intro l k hnod hk
  refine ⟨?_, hnod.sublist (List.take_sublist k l), fun x hx => List.take_subset k l hx⟩
  rw [List.length_take]
  omega

theorem maxWanted_witness_eval :
    maxWanted 1 [(0:ℚ), 1] (([((0:ℚ), (0:ℚ), (0:ℚ))] : List Meas).map steer) = 1 := by
  rw [maxWanted]
  rw [show binCounts [(0:ℚ), 1] (([((0:ℚ), (0:ℚ), (0:ℚ))] : List Meas).map steer) = [1]
    from rfl]
  norm_num

theorem normalizeData_witness_eval :
    normalizeData 1 [(0:ℚ), 1] (fun (s : List Nat) (c : Nat) => s.take c) ["a"]
      [((0:ℚ), (0:ℚ), (0:ℚ))] = .ok (["a"], [((0:ℚ), (0:ℚ), (0:ℚ))]) := by
  have hdrop : dropList 1 [(0:ℚ), 1] (fun (s : List Nat) (c : Nat) => s.take c)
      (([((0:ℚ), (0:ℚ), (0:ℚ))] : List Meas).map steer) = [] := by
    rw [dropList]
    rw [show binsOf [(0:ℚ), 1] = [((0:ℚ), (1:ℚ), true)] from rfl, List.foldl_cons,
      List.foldl_nil]
    rw [if_neg]
    intro hgt
    rw [maxWanted_witness_eval] at hgt
    have hlen : (binIndices (([((0:ℚ), (0:ℚ), (0:ℚ))] : List Meas).map steer)
        ((0:ℚ), (1:ℚ), true)).length = 1 := rfl
    omega
  simp only [normalizeData]
  rw [if_neg (by decide)]
  rw [hdrop]
  rfl

theorem C5_normalizer_bound_witness :
    normalizeData 1 [(0:ℚ), 1] (fun (s : List Nat) (c : Nat) => s.take c) ["a"]
      [((0:ℚ), (0:ℚ), (0:ℚ))] = .ok (["a"], [((0:ℚ), (0:ℚ), (0:ℚ))])
    ∧ ([((0:ℚ), (0:ℚ), (0:ℚ))] : List Meas).countP
        (fun x => binMem ((binsOf [(0:ℚ), 1]).get ⟨0, by decide⟩) (steer x)) ≤
      maxWanted 1 [(0:ℚ), 1] (([((0:ℚ), (0:ℚ), (0:ℚ))] : List Meas).map steer)
    ∧ List.Sublist ([((0:ℚ), (0:ℚ), (0:ℚ))] : List Meas)
        ([((0:ℚ), (0:ℚ), (0:ℚ))] : List Meas) := by
  have hedges : List.Chain' (· ≤ ·) [(0:ℚ), 1] := by
    refine List.chain'_cons.mpr ⟨by norm_num, ?_⟩
    exact List.chain'_singleton 1
  have h := C5_normalizer_bound 1 [(0:ℚ), 1] (fun (s : List Nat) (c : Nat) => s.take c)
    ["a"] [((0:ℚ), (0:ℚ), (0:ℚ))] ["a"] [((0:ℚ), (0:ℚ), (0:ℚ))] 0 (by norm_num) hedges
    take_choose_valid normalizeData_witness_eval (by decide)
  exact ⟨normalizeData_witness_eval, h.1, h.2.2.1⟩
